import Mathlib

/-!
# Verification of the HR attrition dashboard aggregation pipeline

Shallow embedding of the aggregation/binning pipeline of `src/app1.py`:
derived columns (attrition 0/1 mapping, tenure buckets), the grouped
rate aggregator over job roles, the dynamic distance bucketer, the
suppression filter, the job-level x tenure pivot, and the overtime /
job-level chart computations.  Tabular data is a `List Row`; numeric
columns are `ℚ`; missing values (pandas `NaN`) are `Option.none`.
-/

/-- One row of the source table `united.csv` (columns used by the pipeline). -/
structure Row where
  attrition : String
  overtime : String
  jobRole : String
  jobLevel : Int
  gender : String
  distanceFromHome : ℚ
  yearsAtCompany : ℚ
  employeeNumber : Int
  department : String
deriving DecidableEq, Repr

/-- Embedding of `df["Attrition"].map({'Yes': 1, 'No': 0})` (line 28): unmapped labels
become missing (`none`), mirroring pandas' `NaN` for keys absent from the
mapping dict. `some true` is 1 (left), `some false` is 0 (stayed). -/
def mapAttrition (s : String) : Option Bool :=
  if s = "Yes" then some true else if s = "No" then some false else none

/-- Embedding of `df["OverTime"].map({'Yes': True, 'No': False})` (line 29). -/
def mapOverTime (s : String) : Option Bool :=
  if s = "Yes" then some true else if s = "No" then some false else none

/-- The derived `Attrition` column: one entry per row, in row order. -/
def attritionColumn (rows : List Row) : List (Option Bool) :=
  rows.map (fun r => mapAttrition r.attrition)

/-- Embedding of `pd.cut(df["YearsAtCompany"], bins=[0,2,5,10,inf], labels=..., right=False)`
(lines 33-41): left-closed right-open bins `[0,2) [2,5) [5,10) [10,inf)`;
values outside (negative) become missing. -/
def YearsAtCompanyGroup (y : ℚ) : Option String :=
  if 0 ≤ y ∧ y < 2 then some "0–2 years"
  else if 2 ≤ y ∧ y < 5 then some "2–5 years"
  else if 5 ≤ y ∧ y < 10 then some "5–10 years"
  else if 10 ≤ y then some "10+ years"
  else none

/-- Membership-preserving dedup of the job-role column (the distinct group
keys of a `groupby`). -/
def distinctRoles (rows : List Row) : List String :=
  rows.foldr (fun r acc => if r.jobRole ∈ acc then acc else r.jobRole :: acc) []

/-- Insertion step of a stable insertion sort with a boolean comparator. -/
def insertBy (le : α → α → Bool) (a : α) : List α → List α
  | [] => [a]
  | b :: bs => if le a b then a :: b :: bs else b :: insertBy le a bs

/-- Stable insertion sort (elements equal under `le` keep their input order). -/
def sortBy (le : α → α → Bool) (l : List α) : List α :=
  l.foldr (insertBy le) []

/-- Lexicographic order on character lists by code point. -/
def lexLe : List Char → List Char → Bool
  | [], _ => true
  | _ :: _, [] => false
  | c :: cs, d :: ds =>
      if c.toNat < d.toNat then true
      else if d.toNat < c.toNat then false
      else lexLe cs ds

/-- Lexicographic comparator on strings by code point, the order Python and
pandas use to sort string group keys. -/
def strLe (a b : String) : Bool := lexLe a.data b.data

/-- One output row of the job-role grouped rate aggregator. -/
structure AggRow where
  jobRole : String
  count_JobRole : Nat
  attrition_left : ℚ
  attrition_stay : ℚ
deriving DecidableEq, Repr

/-- Aggregation body of `jobrole_attr` (lines 60-62): member count,
`100 * (x == 1).sum() / len(x)` and `100 * (x == 0).sum() / len(x)`.
Missing attrition values count in the denominator only. -/
def aggOfGroup (k : String) (g : List Row) : AggRow :=
  { jobRole := k
    count_JobRole := g.length
    attrition_left :=
      100 * (g.countP (fun r => decide (mapAttrition r.attrition = some true))) / g.length
    attrition_stay :=
      100 * (g.countP (fun r => decide (mapAttrition r.attrition = some false))) / g.length }

/-- Embedding of `df.groupby("JobRole").agg(...)` (lines 58-62): one aggregate row per
distinct role, keys in sorted (lexicographic) order, as pandas `groupby`
with its default `sort=True` produces. -/
def groupedByRole (rows : List Row) : List AggRow :=
  (sortBy strLe (distinctRoles rows)).map
    (fun k => aggOfGroup k (rows.filter (fun r => decide (r.jobRole = k))))

/-- Descending-by-left-rate comparator of `sort_values(["attrition_left"],
ascending=False)` (line 63); pandas' descending sort double-reverses around
an ascending argsort, so ties keep their pre-sort order. -/
def descLeft (a b : AggRow) : Bool := decide (b.attrition_left ≤ a.attrition_left)

/-- Embedding of `jobrole_attr` (lines 58-64): grouped rates sorted by left-rate descending. -/
def jobrole_attr (rows : List Row) : List AggRow :=
  sortBy descLeft (groupedByRole rows)

/-- Department filter of the chart sections (lines 84-85). -/
def filterDept (d : String) (rows : List Row) : List Row :=
  rows.filter (fun r => decide (r.department = d))

/-- Embedding of `jobrole_attr_filtered` (lines 87-93): the same aggregation over the
department-filtered table. -/
def jobrole_attr_filtered (d : String) (rows : List Row) : List AggRow :=
  jobrole_attr (filterDept d rows)

/-- Python's `f"{q:.1f}"` rounding of `q` to one decimal: round half to even
on `10 * q` (banker's rounding). -/
def round1 (q : ℚ) : Int :=
  let t := 10 * q
  let f := ⌊t⌋
  if t - f < 1/2 then f
  else if 1/2 < t - f then f + 1
  else if f % 2 = 0 then f else f + 1

/-- Embedding of `f"{v:.1f}%"` for the nonnegative percentages of this dashboard. -/
def fmtPct (q : ℚ) : String :=
  let n := round1 q
  let a := n / 10
  let b := n % 10
  s!"{a}.{b}%"

/-- KPI 4 "Highest Risk Role" (lines 65-70): the top row of `jobrole_attr`
when nonempty, else the literal `("N/A", "0.0%")`. -/
def kpi4 (agg : List AggRow) : String × String :=
  match agg with
  | [] => ("N/A", "0.0%")
  | a :: _ => (a.jobRole, fmtPct a.attrition_left)

/-- Python `int()` on a rational: truncation toward zero. -/
def pyInt (q : ℚ) : Int := if 0 ≤ q then ⌊q⌋ else -⌊-q⌋

/-- Python `range(a, b, 7)` as a list of integers. -/
def pyRange7 (a b : Int) : List Int :=
  (List.range (((b - a).toNat + 6) / 7)).map (fun (i : Nat) => a + 7 * (i : Int))

/-- Embedding of `.min()` of a column, with the source's `0` fallback for an empty frame
(line 131). -/
def colMin (l : List ℚ) : ℚ :=
  match l with
  | [] => 0
  | x :: xs => xs.foldl min x

/-- Embedding of `.max()` of a column, with the source's `0` fallback (line 132). -/
def colMax (l : List ℚ) : ℚ :=
  match l with
  | [] => 0
  | x :: xs => xs.foldl max x

/-- Last element of the edge list, Python's `bin_edges[-1]` (`0` unused
fallback for the impossible empty case). -/
def lastEdge (l : List Int) : Int := l.getD (l.length - 1) 0

/-- Embedding of `bin_edges` (lines 133-135): `list(range(int(min), int(max)+7, 7))` when
`max > 0` else `[0, 1]`, then append `int(max)+1` if the last edge is still
below the observed maximum. -/
def bin_edges (dists : List ℚ) : List Int :=
  let mn := colMin dists
  let mx := colMax dists
  if 0 < mx then
    let base := pyRange7 (pyInt mn) (pyInt mx + 7)
    if (lastEdge base : ℚ) < mx then base ++ [pyInt mx + 1] else base
  else [0, 1]

/-- Label of one bucket, the `f"{lo}–{hi}"` of line 136 with `hi` already
the decremented upper edge. -/
def bucketLabel (lo hi : Int) : String := s!"{lo}–{hi}"

/-- Embedding of `range_labels` (line 136): `"{lower}–{upper-1}"` per adjacent edge pair,
or the literal `["0-1"]` when there are fewer than two edges. -/
def range_labels (edges : List Int) : List String :=
  if 1 < edges.length then
    (List.range (edges.length - 1)).map (fun i =>
      bucketLabel (edges.getD i 0) (edges.getD (i + 1) 0 - 1))
  else ["0-1"]

/-- Embedding of `pd.cut` bucket search over the tail edges: bucket `i` is the left-open
right-closed interval between consecutive edges. -/
def cutAux (edges : List Int) (d : ℚ) : Option Nat :=
  match edges with
  | e0 :: e1 :: rest =>
      if (e0 : ℚ) < d ∧ d ≤ (e1 : ℚ) then some 0
      else (cutAux (e1 :: rest) d).map (· + 1)
  | _ => none

/-- Embedding of `pd.cut(col, bins=edges, include_lowest=True)` with default `right=True`
(line 137): the first bucket is closed on both ends, later buckets are
left-open right-closed; values outside every bucket are missing. -/
def cutAssign (edges : List Int) (d : ℚ) : Option Nat :=
  match edges with
  | e0 :: e1 :: rest =>
      if (e0 : ℚ) ≤ d ∧ d ≤ (e1 : ℚ) then some 0
      else (cutAux (e1 :: rest) d).map (· + 1)
  | _ => none

/-- The derived `DistanceFromHomeRange` value of one row (line 137): the cut
bucket's label, or the constant string `"0-1"` when the edge list has a
single element (the `if len(bin_edges) > 1 else "0-1"` fallback). -/
def DistanceFromHomeRange (dists : List ℚ) (d : ℚ) : Option String :=
  let edges := bin_edges dists
  if 1 < edges.length then
    (cutAssign edges d).map (fun i => (range_labels edges).getD i "")
  else some "0-1"

/-- Bucket index of one row under the distance cut, `none` when the row's
distance falls outside every bucket (dropped by `groupby` as a missing key);
the single-edge fallback gives every row the one synthetic bucket. -/
def distBucketIdx (dists : List ℚ) (d : ℚ) : Option Nat :=
  let edges := bin_edges dists
  if 1 < edges.length then cutAssign edges d else some 0

/-- One output row of the distance/job-role aggregation (lines 138-142). -/
structure SummaryRow where
  rangeIdx : Nat
  rangeLabel : String
  jobRole : String
  count : Nat
  attrition_left : ℚ
deriving DecidableEq, Repr

/-- Comparator of `groupby(["DistanceFromHomeRange", "JobRole"])` keys:
bucket (category) order first, then role name. -/
def pairLe (p q : Nat × String) : Bool :=
  if p.1 < q.1 then true else if q.1 < p.1 then false else strLe p.2 q.2

/-- The distinct `(bucket, role)` keys observed in the filtered table, in
first-appearance order (sorted afterwards, as `groupby` does). -/
def distPairs (rows : List Row) : List (Nat × String) :=
  let dists := rows.map (fun r => r.distanceFromHome)
  rows.foldr
    (fun r acc =>
      match distBucketIdx dists r.distanceFromHome with
      | none => acc
      | some i => if (i, r.jobRole) ∈ acc then acc else (i, r.jobRole) :: acc)
    []

/-- Embedding of `summary` before suppression (lines 138-142): per observed
`(DistanceFromHomeRange, JobRole)` group, `count=("Attrition", "count")` —
pandas' non-null count, so rows whose mapped attrition is missing are not
counted — and `100 * (x == 1).sum() / len(x)`, whose `len(x)` is the full
group size, missing values included. -/
def summaryRaw (rows : List Row) : List SummaryRow :=
  let dists := rows.map (fun r => r.distanceFromHome)
  (sortBy pairLe (distPairs rows)).map (fun p =>
    let g := rows.filter (fun r =>
      decide (distBucketIdx dists r.distanceFromHome = some p.1) &&
        decide (r.jobRole = p.2))
    { rangeIdx := p.1
      rangeLabel := (range_labels (bin_edges dists)).getD p.1 ""
      jobRole := p.2
      count := g.countP (fun r => (mapAttrition r.attrition).isSome)
      attrition_left :=
        100 * (g.countP (fun r => decide (mapAttrition r.attrition = some true))) / g.length })

/-- Embedding of `summary = summary[summary["count"] > 7]` (line 143): the noise
suppression filter. -/
def summary (rows : List Row) : List SummaryRow :=
  (summaryRaw rows).filter (fun s => decide (7 < s.count))

/-- Rows of one `(JobLevel, YearsAtCompanyGroup)` cell of the heatmap
aggregation (lines 272-279); rows with a missing tenure bucket are dropped
by `groupby`. -/
def cellRows (rows : List Row) (lvl : Int) (lbl : String) : List Row :=
  rows.filter (fun r =>
    decide (r.jobLevel = lvl) && decide (YearsAtCompanyGroup r.yearsAtCompany = some lbl))

/-- One cell of `pivot_table` (lines 280-285): the left-rate percentage of
the cell's group when the combination is observed, `none` (an unset pivot
cell, pandas `NaN`) otherwise. -/
def pivot_table (rows : List Row) (lvl : Int) (lbl : String) : Option ℚ :=
  let g := cellRows rows lvl lbl
  if g.length = 0 then none
  else some (100 * (g.countP (fun r => decide (mapAttrition r.attrition = some true))) / g.length)

/-- Embedding of `overtime_labels` mapping of line 163. -/
def overtimeLabel (b : Bool) : String :=
  if b then "Did Overtime" else "Did Not Do Overtime"

/-- One bar group of the overtime chart: label with left/stayed percentages. -/
structure OvertimeBar where
  label : String
  leftPct : ℚ
  stayedPct : ℚ
deriving DecidableEq, Repr

/-- Overtime filter of lines 161-162: `'All'` keeps everything, otherwise
keep rows whose mapped overtime flag equals the selection (missing flags
compare unequal and are dropped). -/
def filterOvertime (sel : String) (rows : List Row) : List Row :=
  if sel = "All" then rows
  else rows.filter (fun r => decide (mapOverTime r.overtime = some (decide (sel = "Yes"))))

/-- Embedding of `overtime_attrition` plus the chart's column accesses (lines 163-172):
`pd.crosstab(label, attrition, normalize='index') * 100`, renamed, then
`["Left"]` and `["Stayed"]` are read unconditionally.  Both columns exist
only if both outcome values occur in the (label-bearing) filtered rows;
otherwise the column access raises `KeyError`, modelled as `none`. -/
def overtime_attrition (rows : List Row) : Option (List OvertimeBar) :=
  let rs := rows.filter (fun r =>
    (mapOverTime r.overtime).isSome && (mapAttrition r.attrition).isSome)
  let hasLeft := rs.any (fun r => decide (mapAttrition r.attrition = some true))
  let hasStay := rs.any (fun r => decide (mapAttrition r.attrition = some false))
  if hasLeft && hasStay then
    some ((sortBy strLe (rs.foldr
        (fun r acc =>
          let lbl := overtimeLabel ((mapOverTime r.overtime).getD false)
          if lbl ∈ acc then acc else lbl :: acc) [])).map (fun lbl =>
      let g := rs.filter (fun r =>
        decide (overtimeLabel ((mapOverTime r.overtime).getD false) = lbl))
      { label := lbl
        leftPct :=
          100 * (g.countP (fun r => decide (mapAttrition r.attrition = some true))) / g.length
        stayedPct :=
          100 * (g.countP (fun r => decide (mapAttrition r.attrition = some false))) / g.length }))
  else none

/-- Job-level filter of lines 183-184. -/
def filterJobLevel (sel : Option Int) (rows : List Row) : List Row :=
  match sel with
  | none => rows
  | some lvl => rows.filter (fun r => decide (r.jobLevel = lvl))

/-- Embedding of `joblevel_attrition` plus the chart's column accesses (lines 185-197):
`groupby("JobLevel")["Attrition"].value_counts(normalize=True).unstack()`
has a `"Left"` (resp. `"Stayed"`) column only if some row left (resp.
stayed); the chart reads both unconditionally — `KeyError`, modelled as
`none`, when either is missing.  Within a level, an outcome absent from
that level is an unset (`none`) cell of the unstacked frame. -/
def joblevel_attrition (rows : List Row) : Option (List (Int × Option ℚ × Option ℚ)) :=
  let rs := rows.filter (fun r => (mapAttrition r.attrition).isSome)
  let hasLeft := rs.any (fun r => decide (mapAttrition r.attrition = some true))
  let hasStay := rs.any (fun r => decide (mapAttrition r.attrition = some false))
  if hasLeft && hasStay then
    some ((sortBy (fun a b => decide (a ≤ b)) (rs.foldr
        (fun r acc => if r.jobLevel ∈ acc then acc else r.jobLevel :: acc) [])).map
      (fun lvl =>
        let g := rs.filter (fun r => decide (r.jobLevel = lvl))
        let nl := g.countP (fun r => decide (mapAttrition r.attrition = some true))
        let ns := g.countP (fun r => decide (mapAttrition r.attrition = some false))
        (lvl, if ns = 0 then none else some (100 * (ns : ℚ) / g.length),
          if nl = 0 then none else some (100 * (nl : ℚ) / g.length))))
  else none

section SortLemmas

variable {α : Type} (le : α → α → Bool)

theorem mem_insertBy (a x : α) (l : List α) :
    x ∈ insertBy le a l ↔ x = a ∨ x ∈ l := by
  induction l with
  | nil => simp [insertBy]
  | cons b bs ih =>
      by_cases h : le a b = true
      · simp [insertBy, h]
      · simp only [insertBy, if_neg h, List.mem_cons, ih]
        tauto

theorem mem_sortBy (x : α) (l : List α) :
    x ∈ sortBy le l ↔ x ∈ l := by
  induction l with
  | nil => simp [sortBy]
  | cons b bs ih =>
      simp only [sortBy] at ih ⊢
      simp [List.foldr_cons, mem_insertBy, ih]

/-- Inserting an element that is `R`-below every element of an
`le`-and-conditionally-`R` sorted list preserves that sortedness.  With
`R := fun _ _ => True` this is plain insertion-sort correctness; with a
nontrivial `R` it expresses stability. -/
theorem pairwise_insertBy {R : α → α → Prop}
    (htot : ∀ a b, le a b = true ∨ le b a = true)
    (htrans : ∀ a b c, le a b = true → le b c = true → le a c = true)
    (a : α) (l : List α)
    (hl : l.Pairwise (fun x y => le x y = true ∧ (le y x = true → R x y)))
    (ha : ∀ y ∈ l, R a y) :
    (insertBy le a l).Pairwise (fun x y => le x y = true ∧ (le y x = true → R x y)) := by
  induction l with
  | nil => simp [insertBy]
  | cons b bs ih =>
      rcases List.pairwise_cons.mp hl with ⟨hb, hbs⟩
      by_cases h : le a b = true
      · rw [insertBy, if_pos h]
        refine List.pairwise_cons.mpr ⟨?_, hl⟩
        intro y hy
        rcases List.mem_cons.mp hy with rfl | hy
        · exact ⟨h, fun _ => ha _ (List.mem_cons_self _ _)⟩
        · rcases hb y hy with ⟨hby, _⟩
          exact ⟨htrans a b y h hby, fun _ => ha _ (List.mem_cons_of_mem _ hy)⟩
      · rw [insertBy, if_neg h]
        refine List.pairwise_cons.mpr ⟨?_, ?_⟩
        · intro y hy
          rcases (mem_insertBy le a y bs).mp hy with hEq | hy
          · rw [hEq]
            refine ⟨?_, ?_⟩
            · rcases htot a b with hab | hba
              · exact absurd hab h
              · exact hba
            · intro hab; exact absurd hab h
          · exact hb y hy
        · exact ih hbs (fun y hy => ha _ (List.mem_cons_of_mem _ hy))

/-- Stable insertion sort of a `Pairwise R` input is sorted under `le` and,
among `le`-ties, still `Pairwise R`. -/
theorem pairwise_sortBy {R : α → α → Prop}
    (htot : ∀ a b, le a b = true ∨ le b a = true)
    (htrans : ∀ a b c, le a b = true → le b c = true → le a c = true)
    (l : List α) (hl : l.Pairwise R) :
    (sortBy le l).Pairwise (fun x y => le x y = true ∧ (le y x = true → R x y)) := by
  induction l with
  | nil => simp [sortBy]
  | cons b bs ih =>
      rcases List.pairwise_cons.mp hl with ⟨hb, hbs⟩
      have : sortBy le (b :: bs) = insertBy le b (sortBy le bs) := rfl
      rw [this]
      refine pairwise_insertBy le htot htrans b _ (ih hbs) ?_
      intro y hy
      exact hb y ((mem_sortBy le y bs).mp hy)

end SortLemmas

theorem lexLe_total : ∀ a b, lexLe a b = true ∨ lexLe b a = true
  | [], _ => Or.inl rfl
  | _ :: _, [] => Or.inr rfl
  | c :: cs, d :: ds => by
      rcases Nat.lt_trichotomy c.toNat d.toNat with h | h | h
      · left; simp [lexLe, h]
      · rcases lexLe_total cs ds with ih | ih
        · left; simp [lexLe, h, ih]
        · right; simp [lexLe, h, ih]
      · right; simp [lexLe, h]

theorem lexLe_trans : ∀ a b c, lexLe a b = true → lexLe b c = true → lexLe a c = true
  | [], _, _, _, _ => rfl
  | _ :: _, [], _, h, _ => by simp [lexLe] at h
  | _ :: _, _ :: _, [], _, h => by simp [lexLe] at h
  | x :: xs, y :: ys, z :: zs, h1, h2 => by
      simp only [lexLe] at h1 h2 ⊢
      split_ifs at h1 h2 ⊢ with hxy hyx hyz hzy hxz hzx <;>
        first
          | rfl
          | omega
          | (exact lexLe_trans xs ys zs h1 h2)

theorem strLe_total (a b : String) : strLe a b = true ∨ strLe b a = true :=
  lexLe_total a.data b.data

theorem strLe_trans (a b c : String) :
    strLe a b = true → strLe b c = true → strLe a c = true :=
  lexLe_trans a.data b.data c.data

/-- Default aggregate row for `getD` lookups. -/
def defaultAgg : AggRow := { jobRole := "", count_JobRole := 0, attrition_left := 0, attrition_stay := 0 }

theorem mem_distinctRoles (k : String) (rows : List Row) :
    k ∈ distinctRoles rows ↔ ∃ r ∈ rows, r.jobRole = k := by
  induction rows with
  | nil => simp [distinctRoles]
  | cons r t ih =>
      have hstep : distinctRoles (r :: t) =
          if r.jobRole ∈ distinctRoles t then distinctRoles t
          else r.jobRole :: distinctRoles t := rfl
      rw [hstep]
      by_cases h : r.jobRole ∈ distinctRoles t
      · rw [if_pos h, ih]
        constructor
        · rintro ⟨s, hs, he⟩
          exact ⟨s, List.mem_cons_of_mem _ hs, he⟩
        · rintro ⟨s, hs, he⟩
          rcases List.mem_cons.mp hs with rfl | hs'
          · obtain ⟨x, hx, hxe⟩ := ih.mp (he ▸ h)
            exact ⟨x, hx, hxe⟩
          · exact ⟨s, hs', he⟩
      · rw [if_neg h]
        constructor
        · intro hk
          rcases List.mem_cons.mp hk with rfl | hk'
          · exact ⟨r, List.mem_cons_self _ _, rfl⟩
          · obtain ⟨s, hs, he⟩ := ih.mp hk'
            exact ⟨s, List.mem_cons_of_mem _ hs, he⟩
        · rintro ⟨s, hs, he⟩
          rcases List.mem_cons.mp hs with rfl | hs'
          · rw [← he]
            exact List.mem_cons_self _ _
          · exact List.mem_cons_of_mem _ (ih.mpr ⟨s, hs', he⟩)

theorem mem_groupedByRole (a : AggRow) (rows : List Row) :
    a ∈ groupedByRole rows ↔
      ∃ k, k ∈ distinctRoles rows ∧
        a = aggOfGroup k (rows.filter (fun r => decide (r.jobRole = k))) := by
  unfold groupedByRole
  rw [List.mem_map]
  constructor
  · rintro ⟨k, hk, rfl⟩
    exact ⟨k, (mem_sortBy strLe k _).mp hk, rfl⟩
  · rintro ⟨k, hk, rfl⟩
    exact ⟨k, (mem_sortBy strLe k _).mpr hk, rfl⟩

theorem countP_add_countP_not {α : Type} {l : List α} {p q : α → Bool}
    (h : ∀ x ∈ l, q x = !p x) : l.countP p + l.countP q = l.length := by
  induction l with
  | nil => simp
  | cons a t ih =>
      have ha := h a (List.mem_cons_self _ _)
      have iht := ih (fun x hx => h x (List.mem_cons_of_mem _ hx))
      rw [List.countP_cons, List.countP_cons, ha]
      cases hp : p a <;> simp [hp] <;> omega

/-- C1: for every group of the job-role aggregation over recognized
attrition labels, left-rate plus stayed-rate is 100 (within 1e-9). -/
theorem jobrole_rates_sum_to_100 (rows : List Row)
    (hlab : ∀ r ∈ rows, r.attrition = "Yes" ∨ r.attrition = "No")
    (a : AggRow) (ha : a ∈ jobrole_attr rows) :
    |a.attrition_left + a.attrition_stay - 100| ≤ 1 / 1000000000 := by
  have ha' : a ∈ groupedByRole rows := (mem_sortBy descLeft a _).mp ha
  obtain ⟨k, hk, rfl⟩ := (mem_groupedByRole a rows).mp ha'
  set g := rows.filter (fun r => decide (r.jobRole = k)) with hg
  obtain ⟨r0, hr0, hrole⟩ := (mem_distinctRoles k rows).mp hk
  have hr0g : r0 ∈ g := by
    rw [hg]
    exact List.mem_filter.mpr ⟨hr0, by simp [hrole]⟩
  have hlen : g.length ≠ 0 := by
    intro h0
    rw [List.length_eq_zero] at h0
    rw [h0] at hr0g
    exact absurd hr0g (List.not_mem_nil _)
  have hsum : g.countP (fun r => decide (mapAttrition r.attrition = some true)) +
      g.countP (fun r => decide (mapAttrition r.attrition = some false)) = g.length := by
    apply countP_add_countP_not
    intro x hx
    have hxr : x ∈ rows := List.mem_of_mem_filter hx
    rcases hlab x hxr with hy | hn
    · have hm : mapAttrition x.attrition = some true := by rw [hy]; rfl
      simp [hm]
    · have hm : mapAttrition x.attrition = some false := by rw [hn]; rfl
      simp [hm]
  have hq : (g.length : ℚ) ≠ 0 := Nat.cast_ne_zero.mpr hlen
  have hone : (aggOfGroup k g).attrition_left + (aggOfGroup k g).attrition_stay = 100 := by
    show 100 * (g.countP (fun r => decide (mapAttrition r.attrition = some true)) : ℚ) / g.length +
        100 * (g.countP (fun r => decide (mapAttrition r.attrition = some false)) : ℚ) / g.length = 100
    rw [div_add_div_same, ← mul_add, ← Nat.cast_add, hsum, mul_div_assoc, div_self hq, mul_one]
  rw [hone]
  norm_num

/-- A fixed base row used to build concrete test tables. -/
def baseRow : Row :=
  { attrition := "No", overtime := "No", jobRole := "A", jobLevel := 1, gender := "F",
    distanceFromHome := 0, yearsAtCompany := 1, employeeNumber := 1, department := "D" }

/-- A two-row table, one leaver and one stayer in the same role. -/
def pairRows : List Row := [{ baseRow with attrition := "Yes" }, baseRow]

/-- Witness for C1 at the two-row table: the single group has 50 + 50 = 100. -/
theorem jobrole_rates_sum_to_100_witness :
    |(50 : ℚ) + 50 - 100| ≤ 1 / 1000000000 := by
  have hmem : (⟨"A", 2, 50, 50⟩ : AggRow) ∈ jobrole_attr pairRows := by
    norm_num +decide [jobrole_attr, groupedByRole, sortBy, insertBy, descLeft, aggOfGroup,
      distinctRoles, strLe, lexLe, mapAttrition, pairRows, baseRow]
  have h := jobrole_rates_sum_to_100 pairRows (by decide) ⟨"A", 2, 50, 50⟩ hmem
  simpa using h

theorem yac_cases (y : ℚ) (hy : 0 ≤ y) :
    YearsAtCompanyGroup y = some "0–2 years" ∨ YearsAtCompanyGroup y = some "2–5 years" ∨
    YearsAtCompanyGroup y = some "5–10 years" ∨ YearsAtCompanyGroup y = some "10+ years" := by
  simp only [YearsAtCompanyGroup]
  split_ifs with h1 h2 h3 h4
  · simp
  · simp
  · simp
  · simp
  · exfalso
    have hy2 : 2 ≤ y := by
      by_contra hc
      exact h1 ⟨hy, not_le.mp hc⟩
    have hy5 : 5 ≤ y := by
      by_contra hc
      exact h2 ⟨hy2, not_le.mp hc⟩
    have hy10 : 10 ≤ y := by
      by_contra hc
      exact h3 ⟨hy5, not_le.mp hc⟩
    exact h4 hy10

theorem tenure_counts : ∀ (rows : List Row), (∀ r ∈ rows, 0 ≤ r.yearsAtCompany) →
    rows.countP (fun r => decide (YearsAtCompanyGroup r.yearsAtCompany = some "0–2 years")) +
    rows.countP (fun r => decide (YearsAtCompanyGroup r.yearsAtCompany = some "2–5 years")) +
    rows.countP (fun r => decide (YearsAtCompanyGroup r.yearsAtCompany = some "5–10 years")) +
    rows.countP (fun r => decide (YearsAtCompanyGroup r.yearsAtCompany = some "10+ years")) =
      rows.length
  | [], _ => by simp
  | r :: t, hy => by
      have ht := tenure_counts t (fun x hx => hy x (List.mem_cons_of_mem _ hx))
      simp only [List.countP_cons, List.length_cons]
      rcases yac_cases _ (hy r (List.mem_cons_self _ _)) with h | h | h | h <;>
        · rw [h]
          simp +decide
          omega

/-- C2: the four tenure buckets are total on nonnegative tenures and their
member counts sum to the row count. -/
theorem tenure_buckets_partition (rows : List Row)
    (hy : ∀ r ∈ rows, 0 ≤ r.yearsAtCompany) :
    (∀ r ∈ rows, (YearsAtCompanyGroup r.yearsAtCompany).isSome) ∧
    rows.countP (fun r => decide (YearsAtCompanyGroup r.yearsAtCompany = some "0–2 years")) +
    rows.countP (fun r => decide (YearsAtCompanyGroup r.yearsAtCompany = some "2–5 years")) +
    rows.countP (fun r => decide (YearsAtCompanyGroup r.yearsAtCompany = some "5–10 years")) +
    rows.countP (fun r => decide (YearsAtCompanyGroup r.yearsAtCompany = some "10+ years")) =
      rows.length := by
  refine ⟨?_, tenure_counts rows hy⟩
  intro r hr
  rcases yac_cases _ (hy r hr) with h | h | h | h <;> simp [h]

/-- Witness for C2 at the two-row table. -/
theorem tenure_buckets_partition_witness :
    pairRows.countP (fun r => decide (YearsAtCompanyGroup r.yearsAtCompany = some "0–2 years")) +
    pairRows.countP (fun r => decide (YearsAtCompanyGroup r.yearsAtCompany = some "2–5 years")) +
    pairRows.countP (fun r => decide (YearsAtCompanyGroup r.yearsAtCompany = some "5–10 years")) +
    pairRows.countP (fun r => decide (YearsAtCompanyGroup r.yearsAtCompany = some "10+ years")) =
      pairRows.length :=
  (tenure_buckets_partition pairRows (by decide)).2

/-- C6: a filter matching zero rows yields an empty aggregate (no error) and
the guarded KPI reports "N/A" with "0.0%". -/
theorem empty_filter_empty_aggregate (rows : List Row) (d : String)
    (h : ∀ r ∈ rows, r.department ≠ d) :
    jobrole_attr_filtered d rows = [] ∧
    kpi4 (jobrole_attr_filtered d rows) = ("N/A", "0.0%") := by
  have hf : filterDept d rows = [] := by
    rw [filterDept, List.filter_eq_nil_iff]
    intro r hr
    simp [h r hr]
  have he : jobrole_attr_filtered d rows = [] := by
    rw [jobrole_attr_filtered, hf]
    rfl
  exact ⟨he, by rw [he]; rfl⟩

/-- Witness for C6: no row of the two-row table is in department "HR". -/
theorem empty_filter_empty_aggregate_witness :
    jobrole_attr_filtered "HR" pairRows = [] ∧
    kpi4 (jobrole_attr_filtered "HR" pairRows) = ("N/A", "0.0%") :=
  empty_filter_empty_aggregate pairRows "HR" (by decide)

/-- A row whose attrition label is neither "Yes" nor "No". -/
def maybeRow : Row := { baseRow with attrition := "Maybe" }

/-- C7 counterexample: an unrecognized attrition label is not dropped — the
row stays, its derived value is missing, and the missing value silently
degrades a downstream group rate (0 + 0 instead of 100). -/
theorem unmapped_attrition_not_dropped :
    mapAttrition "Maybe" = none ∧
    attritionColumn [maybeRow] = [none] ∧
    ((jobrole_attr [maybeRow]).getD 0 defaultAgg).attrition_left +
      ((jobrole_attr [maybeRow]).getD 0 defaultAgg).attrition_stay = 0 := by
  refine ⟨by decide, by decide, ?_⟩
  norm_num +decide [jobrole_attr, groupedByRole, sortBy, insertBy, descLeft, aggOfGroup,
    distinctRoles, strLe, lexLe, mapAttrition, maybeRow, baseRow, defaultAgg]

/-- C7 amended: a row with an unrecognized attrition label is kept (the
derived column has one entry per row) and its value is missing, silently
propagated downstream. -/
theorem unmapped_attrition_kept_as_missing (rows : List Row) (r : Row)
    (hr : r ∈ rows) (h1 : r.attrition ≠ "Yes") (h2 : r.attrition ≠ "No") :
    (attritionColumn rows).length = rows.length ∧ none ∈ attritionColumn rows := by
  constructor
  · simp [attritionColumn]
  · have hm : mapAttrition r.attrition = none := by
      rw [mapAttrition, if_neg h1, if_neg h2]
    exact List.mem_map.mpr ⟨r, hr, hm⟩

/-- Witness for the amended C7 at a one-row table with label "Maybe". -/
theorem unmapped_attrition_kept_as_missing_witness :
    (attritionColumn [maybeRow]).length = 1 ∧ none ∈ attritionColumn [maybeRow] :=
  unmapped_attrition_kept_as_missing [maybeRow] maybeRow (by decide) (by decide) (by decide)

/-- C8: a (job level, tenure bucket) combination with no members yields an
unset pivot cell — `none`, never `some 0`. -/
theorem pivot_unobserved_cell_unset (rows : List Row) (lvl : Int) (lbl : String)
    (h : ∀ r ∈ rows, ¬(r.jobLevel = lvl ∧ YearsAtCompanyGroup r.yearsAtCompany = some lbl)) :
    pivot_table rows lvl lbl = none ∧ pivot_table rows lvl lbl ≠ some 0 := by
  have hc : cellRows rows lvl lbl = [] := by
    rw [cellRows, List.filter_eq_nil_iff]
    intro r hr
    simp only [Bool.and_eq_true, decide_eq_true_eq]
    exact fun hand => h r hr hand
  have h0 : pivot_table rows lvl lbl = none := by
    simp [pivot_table, hc]
  refine ⟨h0, ?_⟩
  rw [h0]
  exact fun hcon => Option.noConfusion hcon

/-- Witness for C8: level 2 is unobserved in the two-row (level 1) table. -/
theorem pivot_unobserved_cell_unset_witness :
    pivot_table pairRows 2 "0–2 years" = none :=
  (pivot_unobserved_cell_unset pairRows 2 "0–2 years" (by decide)).1

/-- C4: the aggregation's count column is pandas' non-null count, which
under the data model's recognized attrition labels equals the cell's member
count; after the `count > 7` suppression filter a cell with at most 7
members is excluded and one with at least 8 members is kept. -/
theorem suppression_threshold (rows : List Row)
    (hlab : ∀ r ∈ rows, r.attrition = "Yes" ∨ r.attrition = "No")
    (s : SummaryRow) (hs : s ∈ summaryRaw rows) :
    s.count = (rows.filter (fun r =>
      decide (distBucketIdx (rows.map (fun r => r.distanceFromHome)) r.distanceFromHome =
        some s.rangeIdx) && decide (r.jobRole = s.jobRole))).length ∧
    (s.count ≤ 7 → s ∉ summary rows) ∧ (8 ≤ s.count → s ∈ summary rows) := by
  refine ⟨?_, ?_, ?_⟩
  · have hs' := hs
    simp only [summaryRaw] at hs'
    obtain ⟨p, hp, hsp⟩ := List.mem_map.mp hs'
    subst hsp
    apply List.countP_eq_length.mpr
    intro r hr
    have hrrows : r ∈ rows := List.mem_of_mem_filter hr
    rcases hlab r hrrows with hy | hn
    · have hm : mapAttrition r.attrition = some true := by rw [hy]; rfl
      simp [hm]
    · have hm : mapAttrition r.attrition = some false := by rw [hn]; rfl
      simp [hm]
  · intro hle hmem
    simp only [summary] at hmem
    have hcnt := (List.mem_filter.mp hmem).2
    simp only [decide_eq_true_eq] at hcnt
    omega
  · intro hge
    simp only [summary]
    refine List.mem_filter.mpr ⟨hs, ?_⟩
    simp only [decide_eq_true_eq]
    omega

/-- A row that left, used to build the eight-member group. -/
def yesRow : Row := { baseRow with attrition := "Yes" }

/-- Eight identical leavers in one role, one distance bucket. -/
def rows8 : List Row := [yesRow, yesRow, yesRow, yesRow, yesRow, yesRow, yesRow, yesRow]

/-- Witness for C4: the eight-member cell survives the suppression filter. -/
theorem suppression_threshold_witness :
    (⟨0, "0–0", "A", 8, 100⟩ : SummaryRow) ∈ summary rows8 := by
  have hs : (⟨0, "0–0", "A", 8, 100⟩ : SummaryRow) ∈ summaryRaw rows8 := by
    norm_num +decide [summaryRaw, distPairs, sortBy, insertBy, pairLe, strLe, lexLe,
      distBucketIdx, bin_edges, pyRange7, pyInt, colMin, colMax, lastEdge,
      cutAssign, cutAux, range_labels, bucketLabel, mapAttrition, rows8, yesRow, baseRow]
  exact (suppression_threshold rows8 (by decide) _ hs).2.2 (by norm_num)

/-- C9: with every employee a stayer, the overtime and job-level chart
computations fail (the `["Left"]` column access raises `KeyError`, `none`
here) instead of rendering a chart or a placeholder. -/
theorem overtime_joblevel_charts_crash_on_single_outcome :
    overtime_attrition (filterOvertime "All" [baseRow]) = none ∧
    joblevel_attrition (filterJobLevel none [baseRow]) = none := by
  constructor <;> decide

/-- Rows of the tie-break table: "Zed" appears first in the source. -/
def zedY : Row := { baseRow with jobRole := "Zed", attrition := "Yes" }

def zedN : Row := { baseRow with jobRole := "Zed" }

def annY : Row := { baseRow with jobRole := "Ann", attrition := "Yes" }

def annN : Row := { baseRow with jobRole := "Ann" }

def midY : Row := { baseRow with jobRole := "Mid", attrition := "Yes" }

def midN : Row := { baseRow with jobRole := "Mid" }

/-- Zed at 40% (first appearance), Ann at 40%, Mid at 25%. -/
def tieTable : List Row :=
  [zedY, zedY, zedN, zedN, zedN, annY, annY, annN, annN, annN, midY, midN, midN, midN]

set_option maxRecDepth 8000 in
/-- C3 counterexample: with left-rates Zed 40%, Ann 40%, Mid 25% and Zed
first in the source, the ranking is ["Ann", "Zed", "Mid"], not the
first-appearance order ["Zed", "Ann", "Mid"]: ties follow the groupby's
lexicographic key order. -/
theorem ranking_tie_not_first_appearance :
    (jobrole_attr tieTable).map (fun a => a.jobRole) = ["Ann", "Zed", "Mid"] ∧
    (jobrole_attr tieTable).map (fun a => a.jobRole) ≠ ["Zed", "Ann", "Mid"] := by
  have h : (jobrole_attr tieTable).map (fun a => a.jobRole) = ["Ann", "Zed", "Mid"] := by
    norm_num +decide [jobrole_attr, groupedByRole, sortBy, insertBy, descLeft, aggOfGroup,
      distinctRoles, strLe, lexLe, mapAttrition, tieTable, zedY, zedN, annY, annN, midY,
      midN, baseRow]
  exact ⟨h, by rw [h]; decide⟩

theorem descLeft_total : ∀ a b, descLeft a b = true ∨ descLeft b a = true := by
  intro a b
  rcases le_total a.attrition_left b.attrition_left with h | h
  · right; simp [descLeft, h]
  · left; simp [descLeft, h]

theorem descLeft_trans :
    ∀ a b c, descLeft a b = true → descLeft b c = true → descLeft a c = true := by
  intro a b c h1 h2
  simp only [descLeft, decide_eq_true_eq] at h1 h2 ⊢
  exact le_trans h2 h1

theorem pairwise_trivial {α : Type} (l : List α) : l.Pairwise (fun _ _ => True) := by
  induction l with
  | nil => exact List.Pairwise.nil
  | cons a t ih => exact List.Pairwise.cons (fun y _ => trivial) ih

theorem groupedByRole_keys_sorted (rows : List Row) :
    (groupedByRole rows).Pairwise (fun a b => strLe a.jobRole b.jobRole = true) := by
  have h0 := pairwise_sortBy strLe strLe_total strLe_trans (distinctRoles rows)
    (pairwise_trivial (distinctRoles rows))
  have h1 : (sortBy strLe (distinctRoles rows)).Pairwise (fun x y => strLe x y = true) :=
    h0.imp (fun h => h.1)
  unfold groupedByRole
  exact h1.map _ (fun a b hab => hab)

/-- C3 amended: the ranking is sorted by left-rate descending, and two
entries with equal left-rates appear in lexicographic order of the role
name (the order `groupby` pre-sorts keys into), regardless of source
appearance order. -/
theorem ranking_sorted_desc_ties_lex (rows : List Row) (i j : Nat)
    (hij : i < j) (hj : j < (jobrole_attr rows).length) :
    ((jobrole_attr rows).getD j defaultAgg).attrition_left ≤
      ((jobrole_attr rows).getD i defaultAgg).attrition_left ∧
    (((jobrole_attr rows).getD i defaultAgg).attrition_left ≤
        ((jobrole_attr rows).getD j defaultAgg).attrition_left →
      strLe ((jobrole_attr rows).getD i defaultAgg).jobRole
        ((jobrole_attr rows).getD j defaultAgg).jobRole = true) := by
  have hp := pairwise_sortBy descLeft descLeft_total descLeft_trans (groupedByRole rows)
    (groupedByRole_keys_sorted rows)
  have hi : i < (jobrole_attr rows).length := lt_trans hij hj
  have hgi : (jobrole_attr rows).getD i defaultAgg = (jobrole_attr rows).get ⟨i, hi⟩ :=
    List.getD_eq_get _ _ hi
  have hgj : (jobrole_attr rows).getD j defaultAgg = (jobrole_attr rows).get ⟨j, hj⟩ :=
    List.getD_eq_get _ _ hj
  rw [hgi, hgj]
  have hrel := List.pairwise_iff_get.mp hp ⟨i, hi⟩ ⟨j, hj⟩ (Fin.mk_lt_mk.mpr hij)
  constructor
  · have h1 := hrel.1
    simp only [descLeft, decide_eq_true_eq] at h1
    exact h1
  · intro hle
    apply hrel.2
    simp only [descLeft, decide_eq_true_eq]
    exact hle

set_option maxRecDepth 8000 in
/-- Witness for the amended C3: indices 0 and 1 of the tie table. -/
theorem ranking_sorted_desc_ties_lex_witness :
    ((jobrole_attr tieTable).getD 1 defaultAgg).attrition_left ≤
      ((jobrole_attr tieTable).getD 0 defaultAgg).attrition_left := by
  have hlen : 1 < (jobrole_attr tieTable).length := by
    norm_num +decide [jobrole_attr, groupedByRole, sortBy, insertBy, descLeft, aggOfGroup,
      distinctRoles, strLe, lexLe, mapAttrition, tieTable, zedY, zedN, annY, annN, midY,
      midN, baseRow]
  exact (ranking_sorted_desc_ties_lex tieTable 0 1 (by norm_num) hlen).1

theorem le_foldl_max : ∀ (l : List ℚ) (acc : ℚ), acc ≤ l.foldl max acc
  | [], acc => le_refl acc
  | x :: xs, acc => by
      have h := le_foldl_max xs (max acc x)
      calc acc ≤ max acc x := le_max_left _ _
        _ ≤ _ := h

theorem mem_le_foldl_max : ∀ (l : List ℚ) (acc x : ℚ), x ∈ l → x ≤ l.foldl max acc
  | [], _, x, hx => absurd hx (List.not_mem_nil x)
  | y :: ys, acc, x, hx => by
      rcases List.mem_cons.mp hx with rfl | hx'
      · calc x ≤ max acc x := le_max_right _ _
          _ ≤ _ := le_foldl_max ys (max acc x)
      · exact mem_le_foldl_max ys (max acc y) x hx'

theorem le_colMax (l : List ℚ) (x : ℚ) (hx : x ∈ l) : x ≤ colMax l := by
  match l, hx with
  | y :: ys, hx =>
      rw [colMax]
      rcases List.mem_cons.mp hx with rfl | hx'
      · exact le_foldl_max ys x
      · exact mem_le_foldl_max ys y x hx'

theorem foldl_min_le : ∀ (l : List ℚ) (acc : ℚ), l.foldl min acc ≤ acc
  | [], acc => le_refl acc
  | x :: xs, acc => by
      have h := foldl_min_le xs (min acc x)
      calc (x :: xs).foldl min acc = xs.foldl min (min acc x) := rfl
        _ ≤ min acc x := h
        _ ≤ acc := min_le_left _ _

theorem foldl_min_le_mem : ∀ (l : List ℚ) (acc x : ℚ), x ∈ l → l.foldl min acc ≤ x
  | [], _, x, hx => absurd hx (List.not_mem_nil x)
  | y :: ys, acc, x, hx => by
      rcases List.mem_cons.mp hx with rfl | hx'
      · calc (x :: ys).foldl min acc = ys.foldl min (min acc x) := rfl
          _ ≤ min acc x := foldl_min_le ys (min acc x)
          _ ≤ x := min_le_right _ _
      · exact foldl_min_le_mem ys (min acc y) x hx'

theorem colMin_le (l : List ℚ) (x : ℚ) (hx : x ∈ l) : colMin l ≤ x := by
  match l, hx with
  | y :: ys, hx =>
      rw [colMin]
      rcases List.mem_cons.mp hx with rfl | hx'
      · exact foldl_min_le ys x
      · exact foldl_min_le_mem ys y x hx'

theorem foldl_min_nonneg : ∀ (l : List ℚ) (acc : ℚ),
    0 ≤ acc → (∀ d ∈ l, 0 ≤ d) → 0 ≤ l.foldl min acc
  | [], _, ha, _ => ha
  | x :: xs, acc, ha, h =>
      foldl_min_nonneg xs (min acc x)
        (le_min ha (h x (List.mem_cons_self _ _)))
        (fun d hd => h d (List.mem_cons_of_mem _ hd))

theorem colMin_nonneg (l : List ℚ) (hnn : ∀ d ∈ l, 0 ≤ d) : 0 ≤ colMin l := by
  match l with
  | [] => exact le_refl 0
  | x :: xs =>
      rw [colMin]
      exact foldl_min_nonneg xs x (hnn x (List.mem_cons_self _ _))
        (fun d hd => hnn d (List.mem_cons_of_mem _ hd))

theorem pyInt_of_nonneg {q : ℚ} (h : 0 ≤ q) : pyInt q = ⌊q⌋ := by
  rw [pyInt, if_pos h]

theorem pyRange7_length (a b : Int) :
    (pyRange7 a b).length = ((b - a).toNat + 6) / 7 := by
  rw [pyRange7, List.length_map, List.length_range]

theorem pyRange7_getD (a b : Int) (i : Nat) (h : i < (pyRange7 a b).length) :
    (pyRange7 a b).getD i 0 = a + 7 * i := by
  have hn : i < ((b - a).toNat + 6) / 7 := by
    rw [pyRange7_length] at h
    exact h
  rw [pyRange7,
    List.getD_eq_getElem _ _ (by rw [List.length_map, List.length_range]; exact hn)]
  rw [List.getElem_map, List.getElem_range]

theorem lastEdge_concat (l : List Int) (x : Int) : lastEdge (l ++ [x]) = x := by
  rw [lastEdge]
  have hl : (l ++ [x]).length - 1 = l.length := by simp
  rw [hl, List.getD_eq_getElem _ _ (by simp)]
  exact List.getElem_concat_length l x l.length rfl _

theorem lastEdge_cons_cons (a b : Int) (t : List Int) :
    lastEdge (a :: b :: t) = lastEdge (b :: t) := by
  rw [lastEdge, lastEdge]
  have h1 : (a :: b :: t).length - 1 = ((b :: t).length - 1) + 1 := by simp
  rw [h1, List.getD_cons_succ]

theorem pyRange7_pairwise (a b : Int) :
    (pyRange7 a b).Pairwise (fun x y => x < y) := by
  rw [pyRange7]
  refine List.Pairwise.map _ ?_ (List.pairwise_lt_range _)
  intro i j hij
  omega

theorem mem_le_lastEdge : ∀ (l : List Int), l.Pairwise (fun x y => x < y) →
    ∀ x ∈ l, x ≤ lastEdge l
  | [], _, x, hx => absurd hx (List.not_mem_nil x)
  | [y], _, x, hx => by
      rcases List.mem_singleton.mp hx with rfl
      exact le_refl _
  | a :: b :: t, hp, x, hx => by
      rw [lastEdge_cons_cons]
      rcases List.pairwise_cons.mp hp with ⟨hab, htail⟩
      rcases List.mem_cons.mp hx with rfl | hx'
      · have h1 : x < b := hab b (List.mem_cons_self _ _)
        have h2 : b ≤ lastEdge (b :: t) :=
          mem_le_lastEdge (b :: t) htail b (List.mem_cons_self _ _)
        omega
      · exact mem_le_lastEdge (b :: t) htail x hx'

theorem bin_edges_pairwise (dists : List ℚ) :
    (bin_edges dists).Pairwise (fun x y => x < y) := by
  simp only [bin_edges]
  by_cases hpos : 0 < colMax dists
  · rw [if_pos hpos]
    by_cases happ :
        ((lastEdge (pyRange7 (pyInt (colMin dists)) (pyInt (colMax dists) + 7)) : Int) : ℚ) <
          colMax dists
    · rw [if_pos happ]
      rw [List.pairwise_append]
      refine ⟨pyRange7_pairwise _ _, List.pairwise_singleton _ _, ?_⟩
      intro x hx y hy
      rcases List.mem_singleton.mp hy with rfl
      have h1 : x ≤ lastEdge (pyRange7 (pyInt (colMin dists)) (pyInt (colMax dists) + 7)) :=
        mem_le_lastEdge _ (pyRange7_pairwise _ _) x hx
      have h2 : (x : ℚ) < colMax dists :=
        lt_of_le_of_lt (by exact_mod_cast h1) happ
      have h3 : pyInt (colMax dists) = ⌊colMax dists⌋ := pyInt_of_nonneg (le_of_lt hpos)
      have h4 : x ≤ ⌊colMax dists⌋ := Int.le_floor.mpr (le_of_lt h2)
      omega
    · rw [if_neg happ]
      exact pyRange7_pairwise _ _
  · rw [if_neg hpos]
    refine List.Pairwise.cons ?_ (List.pairwise_singleton _ _)
    intro y hy
    rcases List.mem_singleton.mp hy with rfl
    omega

theorem cutAux_isSome : ∀ (rest : List Int) (e0 : Int) (d : ℚ), rest ≠ [] →
    (e0 : ℚ) < d → d ≤ ((lastEdge (e0 :: rest) : Int) : ℚ) →
    (cutAux (e0 :: rest) d).isSome = true
  | [], _, _, hne, _, _ => absurd rfl hne
  | e1 :: rest', e0, d, _, hlt, hle => by
      rw [cutAux]
      by_cases hd : d ≤ (e1 : ℚ)
      · rw [if_pos ⟨hlt, hd⟩]
        rfl
      · rw [if_neg (fun hc => hd hc.2)]
        have he1 : (e1 : ℚ) < d := not_le.mp hd
        have hle' : d ≤ ((lastEdge (e1 :: rest') : Int) : ℚ) := by
          rwa [lastEdge_cons_cons] at hle
        match rest' with
        | [] => exact absurd hle' hd
        | e2 :: rest'' =>
            have h := cutAux_isSome (e2 :: rest'') e1 d (by simp) he1 hle'
            obtain ⟨v, hv⟩ := Option.isSome_iff_exists.mp h
            rw [hv]
            rfl

theorem cutAssign_isSome (edges : List Int) (d : ℚ) (hlen : 2 ≤ edges.length)
    (h1 : ((edges.getD 0 0 : Int) : ℚ) ≤ d)
    (h2 : d ≤ ((lastEdge edges : Int) : ℚ)) :
    (cutAssign edges d).isSome = true := by
  match edges, hlen with
  | e0 :: e1 :: rest, _ =>
      rw [cutAssign]
      by_cases hd : d ≤ (e1 : ℚ)
      · rw [if_pos ⟨h1, hd⟩]
        rfl
      · rw [if_neg (fun hc => hd hc.2)]
        have he1 : (e1 : ℚ) < d := not_le.mp hd
        have hle' : d ≤ ((lastEdge (e1 :: rest) : Int) : ℚ) := by
          rwa [lastEdge_cons_cons] at h2
        match rest with
        | [] => exact absurd hle' hd
        | e2 :: rest'' =>
            have h := cutAux_isSome (e2 :: rest'') e1 d (by simp) he1 hle'
            obtain ⟨v, hv⟩ := Option.isSome_iff_exists.mp h
            rw [hv]
            rfl

theorem bin_edges_base_ne (dists : List ℚ) (hne : dists ≠ [])
    (hnn : ∀ x ∈ dists, 0 ≤ x) :
    1 ≤ (pyRange7 (pyInt (colMin dists)) (pyInt (colMax dists) + 7)).length := by
  rw [pyRange7_length]
  have hmn : 0 ≤ colMin dists := colMin_nonneg dists hnn
  have hmx : colMin dists ≤ colMax dists := by
    match dists, hne with
    | x :: xs, _ =>
        exact le_trans (colMin_le _ x (List.mem_cons_self _ _))
          (le_colMax _ x (List.mem_cons_self _ _))
  have h1 : pyInt (colMin dists) = ⌊colMin dists⌋ := pyInt_of_nonneg hmn
  have h2 : pyInt (colMax dists) = ⌊colMax dists⌋ := pyInt_of_nonneg (le_trans hmn hmx)
  have h3 : ⌊colMin dists⌋ ≤ ⌊colMax dists⌋ := Int.floor_le_floor hmx
  rw [h1, h2]
  omega

theorem bin_edges_head (dists : List ℚ) (hne : dists ≠ []) (hpos : 0 < colMax dists)
    (hnn : ∀ x ∈ dists, 0 ≤ x) :
    (bin_edges dists).getD 0 0 = ⌊colMin dists⌋ := by
  have hb := bin_edges_base_ne dists hne hnn
  have hmn : 0 ≤ colMin dists := colMin_nonneg dists hnn
  have hg : (pyRange7 (pyInt (colMin dists)) (pyInt (colMax dists) + 7)).getD 0 0 =
      pyInt (colMin dists) := by
    have := pyRange7_getD (pyInt (colMin dists)) (pyInt (colMax dists) + 7) 0 (by omega)
    simpa using this
  simp only [bin_edges, if_pos hpos]
  by_cases happ :
      ((lastEdge (pyRange7 (pyInt (colMin dists)) (pyInt (colMax dists) + 7)) : Int) : ℚ) <
        colMax dists
  · rw [if_pos happ, List.getD_append _ _ _ _ (by omega), hg, pyInt_of_nonneg hmn]
  · rw [if_neg happ, hg, pyInt_of_nonneg hmn]

theorem bin_edges_last (dists : List ℚ) (hpos : 0 < colMax dists) :
    colMax dists ≤ ((lastEdge (bin_edges dists) : Int) : ℚ) := by
  simp only [bin_edges, if_pos hpos]
  by_cases happ :
      ((lastEdge (pyRange7 (pyInt (colMin dists)) (pyInt (colMax dists) + 7)) : Int) : ℚ) <
        colMax dists
  · rw [if_pos happ, lastEdge_concat]
    rw [pyInt_of_nonneg (le_of_lt hpos)]
    push_cast
    have := Int.lt_floor_add_one (colMax dists)
    linarith
  · rw [if_neg happ]
    exact not_lt.mp happ

theorem bin_edges_step (dists : List ℚ) (i : Nat)
    (hi : i + 2 < (bin_edges dists).length) :
    (bin_edges dists).getD (i + 1) 0 = (bin_edges dists).getD i 0 + 7 := by
  by_cases hpos : 0 < colMax dists
  · simp only [bin_edges, if_pos hpos] at hi ⊢
    by_cases happ :
        ((lastEdge (pyRange7 (pyInt (colMin dists)) (pyInt (colMax dists) + 7)) : Int) : ℚ) <
          colMax dists
    · rw [if_pos happ] at hi ⊢
      rw [List.length_append] at hi
      have hlen : i + 1 < (pyRange7 (pyInt (colMin dists)) (pyInt (colMax dists) + 7)).length := by
        simp at hi
        omega
      rw [List.getD_append _ _ _ _ hlen, List.getD_append _ _ _ _ (by omega)]
      rw [pyRange7_getD _ _ _ hlen, pyRange7_getD _ _ _ (by omega)]
      push_cast
      ring
    · rw [if_neg happ] at hi ⊢
      rw [pyRange7_getD _ _ _ (by omega), pyRange7_getD _ _ _ (by omega)]
      push_cast
      ring
  · simp only [bin_edges, if_neg hpos] at hi ⊢
    simp at hi

theorem DistanceFromHomeRange_isSome (dists : List ℚ) (hne : dists ≠ [])
    (hnn : ∀ x ∈ dists, 0 ≤ x) (d : ℚ) (hd : d ∈ dists) :
    (DistanceFromHomeRange dists d).isSome = true := by
  rw [DistanceFromHomeRange]
  by_cases hlen : 1 < (bin_edges dists).length
  · rw [if_pos hlen]
    have hd0 : 0 ≤ d := hnn d hd
    have hdmx : d ≤ colMax dists := le_colMax dists d hd
    have hdmn : colMin dists ≤ d := colMin_le dists d hd
    have hsome : (cutAssign (bin_edges dists) d).isSome = true := by
      by_cases hpos : 0 < colMax dists
      · apply cutAssign_isSome _ _ (by omega)
        · rw [bin_edges_head dists hne hpos hnn]
          calc ((⌊colMin dists⌋ : Int) : ℚ) ≤ colMin dists := Int.floor_le _
            _ ≤ d := hdmn
        · exact le_trans hdmx (bin_edges_last dists hpos)
      · have he : bin_edges dists = [0, 1] := by
          simp only [bin_edges, if_neg hpos]
        rw [he, cutAssign]
        rw [if_pos ⟨by exact_mod_cast hd0, by
          push_cast
          linarith [le_trans hdmx (not_lt.mp hpos)]⟩]
        rfl
    obtain ⟨v, hv⟩ := Option.isSome_iff_exists.mp hsome
    rw [hv]
    rfl
  · rw [if_neg hlen]
    rfl

/-- C5 amended: for a nonempty filtered subset of nonnegative distances with
positive maximum, the bucket edges start at the floor of the minimum, step
by 7 (with the possible exception of the final appended edge), end at or
above the maximum, and every observed distance falls in some bucket; the
empty/nonpositive fallback produces edges `[0, 1]`, i.e. one bucket labeled
"0–0", not "0-1". -/
theorem bin_edges_spec (dists : List ℚ) (hne : dists ≠ []) (hpos : 0 < colMax dists)
    (hnn : ∀ x ∈ dists, 0 ≤ x) :
    (bin_edges dists).getD 0 0 = ⌊colMin dists⌋ ∧
    colMax dists ≤ ((lastEdge (bin_edges dists) : Int) : ℚ) ∧
    (∀ i, i + 2 < (bin_edges dists).length →
      (bin_edges dists).getD (i + 1) 0 = (bin_edges dists).getD i 0 + 7) ∧
    (∀ d ∈ dists, (DistanceFromHomeRange dists d).isSome = true) :=
  ⟨bin_edges_head dists hne hpos hnn, bin_edges_last dists hpos,
    fun i hi => bin_edges_step dists i hi,
    fun d hd => DistanceFromHomeRange_isSome dists hne hnn d hd⟩

/-- C5 counterexample: on an empty subset (and likewise when the maximum is
not positive) the degenerate bucket is labeled "0–0", not "0-1". -/
theorem degenerate_bucket_label : range_labels (bin_edges []) = ["0–0"] ∧
    range_labels (bin_edges []) ≠ ["0-1"] ∧
    DistanceFromHomeRange [0] 0 = some "0–0" := by
  refine ⟨by decide, by decide, by decide⟩

/-- Witness for the amended C5 at the subset `[3]`. -/
theorem bin_edges_spec_witness :
    (bin_edges [3]).getD 0 0 = ⌊colMin [3]⌋ ∧
    colMax [3] ≤ ((lastEdge (bin_edges [3]) : Int) : ℚ) :=
  ⟨(bin_edges_spec [3] (by decide) (by decide) (by decide)).1,
    (bin_edges_spec [3] (by decide) (by decide) (by decide)).2.1⟩

theorem pairwise_getD_lt (l : List Int) (hp : l.Pairwise (fun x y => x < y))
    (i j : Nat) (hij : i < j) (hj : j < l.length) :
    l.getD i 0 < l.getD j 0 := by
  have hi : i < l.length := lt_trans hij hj
  rw [List.getD_eq_get _ _ hi, List.getD_eq_get _ _ hj]
  exact List.pairwise_iff_get.mp hp ⟨i, hi⟩ ⟨j, hj⟩ (Fin.mk_lt_mk.mpr hij)

theorem cutAux_at_edge : ∀ (l : List Int), l.Pairwise (fun x y => x < y) →
    ∀ m, 1 ≤ m → m < l.length →
    cutAux l ((l.getD m 0 : Int) : ℚ) = some (m - 1)
  | [], _, m, _, hm2 => by simp at hm2
  | [_], _, m, hm1, hm2 => by simp at hm2; omega
  | e0 :: e1 :: rest, hp, m, hm1, hm2 => by
      rcases Nat.lt_or_ge m 2 with hm | hm
      · have hm' : m = 1 := by omega
        subst hm'
        have h01 : e0 < e1 := (List.pairwise_cons.mp hp).1 e1 (List.mem_cons_self _ _)
        rw [cutAux, if_pos ⟨by exact_mod_cast h01, le_refl _⟩]
      · have hm' : m = (m - 1) + 1 := by omega
        have hgetD : (e0 :: e1 :: rest).getD m 0 = (e1 :: rest).getD (m - 1) 0 := by
          conv_lhs => rw [hm']
          rw [List.getD_cons_succ]
        have htail : (e1 :: rest).Pairwise (fun x y => x < y) :=
          (List.pairwise_cons.mp hp).2
        have hmlen : m - 1 < (e1 :: rest).length := by
          simp only [List.length_cons] at hm2 ⊢
          omega
        have hv : e1 < (e1 :: rest).getD (m - 1) 0 := by
          have h := pairwise_getD_lt (e1 :: rest) htail 0 (m - 1) (by omega) hmlen
          simpa using h
        rw [cutAux, hgetD]
        rw [if_neg (fun hc => absurd hc.2 (by exact_mod_cast not_le.mpr hv))]
        have hrec := cutAux_at_edge (e1 :: rest) htail (m - 1) (by omega) hmlen
        rw [hrec]
        show some (m - 1 - 1 + 1) = some (m - 1)
        congr 1
        omega

theorem cutAssign_at_edge : ∀ (l : List Int), l.Pairwise (fun x y => x < y) →
    ∀ j, 1 ≤ j → j < l.length →
    cutAssign l ((l.getD j 0 : Int) : ℚ) = some (j - 1)
  | [], _, j, _, hj2 => by simp at hj2
  | [_], _, j, hj1, hj2 => by simp at hj2; omega
  | e0 :: e1 :: rest, hp, j, hj1, hj2 => by
      rcases Nat.lt_or_ge j 2 with hj | hj
      · have hj' : j = 1 := by omega
        subst hj'
        have h01 : e0 < e1 := (List.pairwise_cons.mp hp).1 e1 (List.mem_cons_self _ _)
        rw [cutAssign, if_pos ⟨by exact_mod_cast le_of_lt h01, le_refl _⟩]
      · have hj' : j = (j - 1) + 1 := by omega
        have hgetD : (e0 :: e1 :: rest).getD j 0 = (e1 :: rest).getD (j - 1) 0 := by
          conv_lhs => rw [hj']
          rw [List.getD_cons_succ]
        have htail : (e1 :: rest).Pairwise (fun x y => x < y) :=
          (List.pairwise_cons.mp hp).2
        have hjlen : j - 1 < (e1 :: rest).length := by
          simp only [List.length_cons] at hj2 ⊢
          omega
        have hv : e1 < (e1 :: rest).getD (j - 1) 0 := by
          have h := pairwise_getD_lt (e1 :: rest) htail 0 (j - 1) (by omega) hjlen
          simpa using h
        rw [cutAssign, hgetD]
        rw [if_neg (fun hc => absurd hc.2 (by exact_mod_cast not_le.mpr hv))]
        have hrec := cutAux_at_edge (e1 :: rest) htail (j - 1) (by omega) hjlen
        rw [hrec]
        show some (j - 1 - 1 + 1) = some (j - 1)
        congr 1
        omega

theorem cutAssign_at_head (l : List Int) (hp : l.Pairwise (fun x y => x < y))
    (hlen : 2 ≤ l.length) :
    cutAssign l ((l.getD 0 0 : Int) : ℚ) = some 0 := by
  match l, hlen with
  | e0 :: e1 :: rest, _ =>
      have h01 : e0 < e1 :=
        (List.pairwise_cons.mp hp).1 e1 (List.mem_cons_self _ _)
      rw [cutAssign, if_pos ⟨le_refl _, by exact_mod_cast le_of_lt h01⟩]

theorem range_labels_getD (edges : List Int) (hlen : 1 < edges.length)
    (i : Nat) (hi : i < edges.length - 1) :
    (range_labels edges).getD i "" =
      bucketLabel (edges.getD i 0) (edges.getD (i + 1) 0 - 1) := by
  rw [range_labels, if_pos hlen]
  rw [List.getD_eq_getElem _ _ (by rw [List.length_map, List.length_range]; exact hi)]
  rw [List.getElem_map, List.getElem_range]

/-- C10: a distance equal to an internal bucket edge is assigned to the
lower bucket, whose label "{lower}–{upper-1}" names a range whose upper
bound excludes that value; the leftmost edge goes to the first bucket. -/
theorem boundary_assigned_to_lower_bucket (dists : List ℚ) (j : Nat)
    (hj1 : 1 ≤ j) (hj2 : j < (bin_edges dists).length) :
    cutAssign (bin_edges dists) (((bin_edges dists).getD j 0 : Int) : ℚ) = some (j - 1) ∧
    (range_labels (bin_edges dists)).getD (j - 1) "" =
      bucketLabel ((bin_edges dists).getD (j - 1) 0) ((bin_edges dists).getD j 0 - 1) ∧
    (bin_edges dists).getD j 0 - 1 < (bin_edges dists).getD j 0 ∧
    cutAssign (bin_edges dists) (((bin_edges dists).getD 0 0 : Int) : ℚ) = some 0 := by
  have hp := bin_edges_pairwise dists
  refine ⟨cutAssign_at_edge _ hp j hj1 hj2, ?_, by omega,
    cutAssign_at_head _ hp (by omega)⟩
  have hlen : 1 < (bin_edges dists).length := by omega
  have h2 := range_labels_getD (bin_edges dists) hlen (j - 1) (by omega)
  rw [h2, Nat.sub_add_cancel hj1]

/-- Witness for C10: edges [0, 7, 14]; the distance exactly 7 (the internal
edge at index 1) lands in the lower bucket 0. -/
theorem boundary_assigned_to_lower_bucket_witness :
    cutAssign (bin_edges [0, 10]) (((bin_edges [0, 10]).getD 1 0 : Int) : ℚ) = some 0 :=
  (boundary_assigned_to_lower_bucket [0, 10] 1 (by norm_num) (by decide)).1
